import Mathlib

/-!
# Verification of the `logos-nom-bridge` token-stream adapter

Shallow embedding of `src/lib.rs` (the `Tokens` adapter implementing nom's
`InputIter` / `InputLength` / `InputTake` over a `logos::Lexer`) and of the
parser bodies generated by `src/macros.rs` (`token_parser!` and
`data_variant_parser!`).

Source strings are byte lists (`Str`), since all offsets in the code are
byte offsets into UTF-8 text.  The external `logos::Lexer` is not part of
this repository; it is modelled from the spec (§1, §3, §6):
a tokenizer produces typed tokens with byte spans from a source string,
`next` advances one token and is a no-op at exhaustion, and the cursor is
cheaply clonable.
-/

/-- A source string, as the list of its UTF-8 bytes (Rust `&str` / `&[u8]`). -/
abbrev Str := List Nat

/-- A UTF-8 continuation byte: `0x80 <= b < 0xC0`. -/
def utf8ContByte (b : Nat) : Bool := decide (0x80 ≤ b) && decide (b < 0xC0)

/-- Rust `str::is_char_boundary(i)`: true at 0; true at `len`; otherwise the
byte at `i` must not be a continuation byte (and `i` must be in bounds). -/
def is_char_boundary (s : Str) (i : Nat) : Bool :=
  if i = 0 then true
  else
    match s[i]? with
    | none => i == s.length
    | some b => !(utf8ContByte b)

theorem is_char_boundary_le {s : Str} {i : Nat} (h : is_char_boundary s i = true) :
    i ≤ s.length := by
  unfold is_char_boundary at h
  split at h
  · omega
  · rcases hg : s[i]? with _ | b <;> rw [hg] at h
    · simp only [beq_iff_eq] at h; omega
    · have : i < s.length := (List.getElem?_eq_some_iff.mp hg).1
      omega

/-- Boundary at `n + i` in `s`, from a boundary at `i` in `s.drop n` and one at `n`. -/
theorem is_char_boundary_add {s : Str} {n i : Nat}
    (hn : is_char_boundary s n = true) (hi : is_char_boundary (s.drop n) i = true) :
    is_char_boundary s (n + i) = true := by
  rcases Nat.eq_zero_or_pos i with rfl | hipos
  · simpa using hn
  · have hnle : n ≤ s.length := is_char_boundary_le hn
    unfold is_char_boundary at hi ⊢
    rw [if_neg (by omega)]
    rw [if_neg (by omega)] at hi
    have hdg : (s.drop n)[i]? = s[n + i]? := List.getElem?_drop s n i
    rcases hg : s[n + i]? with _ | b
    · rw [hg] at hdg
      rw [hdg] at hi
      simp only [beq_iff_eq, List.length_drop] at hi ⊢
      omega
    · rw [hg] at hdg
      rw [hdg] at hi
      exact hi

/-! ## The tokenizer interface (external `logos`)

Modelled from the spec: the tokenizer is an external collaborator (spec §1
"Out of scope ... the tokenizer itself (produces a sequence of typed tokens
plus their byte spans from a source string; supports cheap cloning of its
cursor state)").  `scan s` inspects the remaining input `s` and returns the
next token together with its span `[a, b)` relative to `s` (a positive gap
`a` corresponds to skipped trivia), or `none` when no further token can be
produced.  The propositional fields record properties of a maximal-munch
DFA lexer on which the spec's slicing properties rest (§4.1, §8, §9
"Re-tokenization on take/take_split"):
tokens are nonempty and in bounds; truncating the input at or after the end
of the produced token does not change it; dropping the skipped gap does not
change it; the gap alone holds no token; and span endpoints are UTF-8
character boundaries (logos tokenizes `&str`). -/
structure Tokenizer (T : Type) where
  scan : Str → Option (T × Nat × Nat)
  scan_span : ∀ s t a b, scan s = some (t, a, b) → a < b ∧ b ≤ s.length
  scan_trunc : ∀ s n t a b, scan s = some (t, a, b) → b ≤ n → scan (s.take n) = some (t, a, b)
  scan_gap_drop : ∀ s t a b, scan s = some (t, a, b) → scan (s.drop a) = some (t, 0, b - a)
  scan_gap_none : ∀ s t a b, scan s = some (t, a, b) → scan (s.take a) = none
  scan_boundary : ∀ s t a b, scan s = some (t, a, b) →
    is_char_boundary s a = true ∧ is_char_boundary s b = true

/-- On the empty remainder a tokenizer never produces a token (its span would
have to be nonempty and within bounds). -/
theorem Tokenizer.scan_nil {T : Type} (tok : Tokenizer T) : tok.scan [] = none := by
  rcases h : tok.scan [] with _ | ⟨t, a, b⟩
  · rfl
  · have := tok.scan_span [] t a b h
    simp at this
    omega

/-! ## The lexer cursor (external `logos::Lexer`, modelled from the spec)

State: the full source, and the span `[tokenStart, tokenEnd)` of the most
recently produced token (both `0` initially).  `next` produces the next
token from the remainder and moves the span onto it; at exhaustion it is a
no-op (spec §4.1: "the underlying cursor's `next` on exhaustion is defined
as a no-op").  Cloning a cursor is copying this structure. -/
structure Lexer where
  source : Str
  tokenStart : Nat
  tokenEnd : Nat
deriving DecidableEq, Repr

def Lexer.new (s : Str) : Lexer := ⟨s, 0, 0⟩

/-- The remaining (not yet tokenized) input of the cursor. -/
def Lexer.remainder (L : Lexer) : Str := L.source.drop L.tokenEnd

/-- `logos::Lexer::next` (spec-modelled): produce the next token, moving the
span; no-op returning `none` at exhaustion. -/
def Lexer.nextStep {T : Type} (tok : Tokenizer T) (L : Lexer) : Option T × Lexer :=
  match tok.scan L.remainder with
  | some (t, a, b) => (some t, ⟨L.source, L.tokenEnd + a, L.tokenEnd + b⟩)
  | none => (none, L)

/-! ## The adapter: `Tokens` (src/lib.rs) -/

/-- `Tokens<'i, T>` (src/lib.rs:137-142): a wrapper holding a `logos::Lexer`.
The token type only appears through the `Tokenizer` parameter of the
operations. -/
structure Tokens where
  lexer : Lexer
deriving DecidableEq, Repr

/-- `Tokens::new` (src/lib.rs:161-165). -/
def Tokens.new (s : Str) : Tokens := ⟨Lexer.new s⟩

/-- `Tokens::len` (src/lib.rs:167-169): `source().len() - span().end`. -/
def Tokens.len (t : Tokens) : Nat := t.lexer.source.length - t.lexer.tokenEnd

/-- `Tokens::is_empty` (src/lib.rs:171-173). -/
def Tokens.is_empty (t : Tokens) : Bool := t.len == 0

/-- Rust `&source[a..b]` for an in-bounds span. -/
def sliceSpan (s : Str) (a b : Nat) : Str := (s.take b).drop a

/-- `Tokens::peek` (src/lib.rs:175-178), with the state threaded explicitly:
the code clones the held lexer, advances the clone, and returns the token
with its source slice, leaving the held lexer untouched. -/
def Tokens.peekSt {T : Type} (tok : Tokenizer T) (t : Tokens) :
    Option (T × Str) × Tokens :=
  let iter := t.lexer
  match Lexer.nextStep tok iter with
  | (some tk, iter') => (some (tk, sliceSpan t.lexer.source iter'.tokenStart iter'.tokenEnd), t)
  | (none, _) => (none, t)

/-- The value returned by `Tokens::peek`. -/
def Tokens.peek {T : Type} (tok : Tokenizer T) (t : Tokens) : Option (T × Str) :=
  (t.peekSt tok).1

/-- `Tokens::advance` (src/lib.rs:180-183): `self.lexer.next(); self`. -/
def Tokens.advance {T : Type} (tok : Tokenizer T) (t : Tokens) : Tokens :=
  ⟨(Lexer.nextStep tok t.lexer).2⟩

/-- `advance` iterated. -/
def Tokens.advanceN {T : Type} (tok : Tokenizer T) : Nat → Tokens → Tokens
  | 0, t => t
  | n + 1, t => Tokens.advanceN tok n (Tokens.advance tok t)

/-! ## The spanned token stream (`logos::SpannedIter`, used by the adapter)

`lexer.clone().spanned()` yields `(token, span)` pairs until exhaustion.
We materialize the stream as a list, computed with explicit fuel (each
produced token consumes at least one byte, so `|source| + 1 - tokenEnd`
steps always suffice). -/
def lexListF {T : Type} (tok : Tokenizer T) : Nat → Lexer → List (T × Nat × Nat)
  | 0, _ => []
  | fuel + 1, L =>
    match tok.scan L.remainder with
    | some (t, a, b) =>
      (t, L.tokenEnd + a, L.tokenEnd + b) :: lexListF tok fuel ⟨L.source, L.tokenEnd + a, L.tokenEnd + b⟩
    | none => []

/-- The spanned token stream of a cursor. -/
def Lexer.spansList {T : Type} (tok : Tokenizer T) (L : Lexer) : List (T × Nat × Nat) :=
  lexListF tok (L.source.length + 1 - L.tokenEnd) L

/-- The spanned token stream of an adapter (its `spanned()` iterator). -/
def Tokens.spans {T : Type} (tok : Tokenizer T) (t : Tokens) : List (T × Nat × Nat) :=
  Lexer.spansList tok t.lexer

/-- The token-value stream of an adapter (its lexer iterated as `Iterator`). -/
def Tokens.tokenValues {T : Type} (tok : Tokenizer T) (t : Tokens) : List T :=
  (t.spans tok).map (fun x => x.1)

theorem lexListF_fuel {T : Type} (tok : Tokenizer T) :
    ∀ f₁ f₂ (L : Lexer), L.source.length - L.tokenEnd < f₁ →
      L.source.length - L.tokenEnd < f₂ → lexListF tok f₁ L = lexListF tok f₂ L := by
  intro f₁
  induction f₁ with
  | zero => intro f₂ L h₁; omega
  | succ f ih =>
    intro f₂ L h₁ h₂
    rcases f₂ with _ | f₂'
    · omega
    rcases hscan : tok.scan L.remainder with _ | ⟨t, a, b⟩
    · simp [lexListF, hscan]
    · have hspan := tok.scan_span _ t a b hscan
      have hne : L.remainder ≠ [] := by
        intro hnil
        rw [hnil, tok.scan_nil] at hscan
        exact Option.noConfusion hscan
      have hrem : L.remainder.length = L.source.length - L.tokenEnd := by
        simp [Lexer.remainder]
      have hlt : L.source.length - (L.tokenEnd + b) < L.source.length - L.tokenEnd := by
        have : L.remainder.length ≠ 0 := fun h => hne (List.eq_nil_of_length_eq_zero h)
        omega
      simp only [lexListF, hscan]
      rw [ih f₂' ⟨L.source, L.tokenEnd + a, L.tokenEnd + b⟩ (by simp; omega) (by simp; omega)]

/-- Any sufficiently large fuel computes the stream. -/
theorem lexListF_eq_spansList {T : Type} (tok : Tokenizer T) (f : Nat) (L : Lexer)
    (h : L.source.length - L.tokenEnd < f) : lexListF tok f L = Lexer.spansList tok L := by
  by_cases he : L.tokenEnd ≤ L.source.length
  · exact lexListF_fuel tok f (L.source.length + 1 - L.tokenEnd) L h (by omega)
  · have hrem : L.remainder = [] := by
      simp only [Lexer.remainder]
      exact List.drop_eq_nil_of_le (by omega)
    have hscan : tok.scan L.remainder = none := by rw [hrem]; exact tok.scan_nil
    have h₁ : lexListF tok f L = [] := by
      rcases f with _ | f'
      · rfl
      · simp [lexListF, hscan]
    have h₂ : Lexer.spansList tok L = [] := by
      unfold Lexer.spansList
      rcases hf : L.source.length + 1 - L.tokenEnd with _ | f'
      · rfl
      · simp [lexListF, hscan]
    rw [h₁, h₂]

/-- The stream does not depend on `tokenStart`. -/
theorem lexListF_tokenStart {T : Type} (tok : Tokenizer T) :
    ∀ (f : Nat) (s : Str) (x y e : Nat),
      lexListF tok f ⟨s, x, e⟩ = lexListF tok f ⟨s, y, e⟩ := by
  intro f
  induction f with
  | zero => intro s x y e; rfl
  | succ f ih =>
    intro s x y e
    simp only [lexListF]
    rcases hscan : tok.scan (Lexer.remainder ⟨s, x, e⟩) with _ | ⟨t, a, b⟩ <;>
      simp only [Lexer.remainder] at hscan ⊢ <;> rw [hscan]

/-- The stream does not depend on `tokenStart`. -/
theorem spansList_tokenStart {T : Type} (tok : Tokenizer T) (s : Str) (x y e : Nat) :
    Lexer.spansList tok ⟨s, x, e⟩ = Lexer.spansList tok ⟨s, y, e⟩ := by
  unfold Lexer.spansList
  exact lexListF_tokenStart tok _ s x y e

/-- Unfolding the stream one token. -/
theorem spansList_cons {T : Type} (tok : Tokenizer T) (L : Lexer) (t : T) (a b : Nat)
    (h : tok.scan L.remainder = some (t, a, b)) :
    Lexer.spansList tok L =
      (t, L.tokenEnd + a, L.tokenEnd + b) ::
        Lexer.spansList tok ⟨L.source, L.tokenEnd + a, L.tokenEnd + b⟩ := by
  have hne : L.remainder ≠ [] := by
    intro hnil
    rw [hnil, tok.scan_nil] at h
    exact Option.noConfusion h
  have hspan := tok.scan_span _ t a b h
  have hrem : L.remainder.length = L.source.length - L.tokenEnd := by simp [Lexer.remainder]
  have hlen0 : L.remainder.length ≠ 0 := fun hz => hne (List.eq_nil_of_length_eq_zero hz)
  unfold Lexer.spansList
  have hfuel : L.source.length + 1 - L.tokenEnd = (L.source.length - L.tokenEnd) + 1 := by omega
  rw [hfuel]
  simp only [lexListF, h]
  congr 1
  exact lexListF_eq_spansList tok _ _ (by simp; omega)

/-- Exhaustion: the stream is empty iff `scan` of the remainder yields nothing. -/
theorem spansList_nil {T : Type} (tok : Tokenizer T) (L : Lexer)
    (h : tok.scan L.remainder = none) : Lexer.spansList tok L = [] := by
  unfold Lexer.spansList
  rcases hf : L.source.length + 1 - L.tokenEnd with _ | f
  · rfl
  · simp [lexListF, h]

theorem spansList_eq_nil_iff {T : Type} (tok : Tokenizer T) (L : Lexer) :
    Lexer.spansList tok L = [] ↔ tok.scan L.remainder = none := by
  constructor
  · intro h
    rcases hscan : tok.scan L.remainder with _ | ⟨t, a, b⟩
    · rfl
    · rw [spansList_cons tok L t a b hscan] at h
      exact absurd h (List.cons_ne_nil _ _)
  · exact spansList_nil tok L

/-- Shift a spanned token by a byte offset. -/
def shiftSpan {T : Type} (e : Nat) (x : T × Nat × Nat) : T × Nat × Nat :=
  (x.1, e + x.2.1, e + x.2.2)

/-- The stream of a mid-source cursor is the stream of a fresh cursor over the
remainder, with all spans shifted by the cursor position. -/
theorem spansList_shift {T : Type} (tok : Tokenizer T) :
    ∀ (f : Nat) (s : Str) (x y e : Nat),
      lexListF tok f ⟨s, x, e⟩ =
        (lexListF tok f ⟨s.drop e, y, 0⟩).map (shiftSpan e) := by
  intro f
  induction f with
  | zero => intro s x y e; rfl
  | succ f ih =>
    intro s x y e
    have hrem : Lexer.remainder ⟨s, x, e⟩ = Lexer.remainder ⟨s.drop e, y, 0⟩ := by
      simp [Lexer.remainder]
    simp only [lexListF]
    rw [hrem]
    rcases hscan : tok.scan (Lexer.remainder ⟨s.drop e, y, 0⟩) with _ | ⟨t, a, b⟩
    · simp
    · simp only [List.map_cons]
      congr 1
      · simp [shiftSpan]
      · simp only [Nat.zero_add]
        rw [ih s (e + a) y (e + b), ih (s.drop e) a y b]
        rw [List.map_map, List.drop_drop]
        apply List.map_congr_left
        intro x _
        simp [shiftSpan, Function.comp]
        omega

/-- `spansList`-level version of `spansList_shift`. -/
theorem spansList_shift_fresh {T : Type} (tok : Tokenizer T) (s : Str) (x y e : Nat) :
    Lexer.spansList tok ⟨s, x, e⟩ =
      (Lexer.spansList tok ⟨s.drop e, y, 0⟩).map (shiftSpan e) := by
  have h₁ : Lexer.spansList tok ⟨s, x, e⟩ = lexListF tok (s.length + 1) ⟨s, x, e⟩ :=
    (lexListF_eq_spansList tok (s.length + 1) ⟨s, x, e⟩ (by simp; omega)).symm
  have h₂ : Lexer.spansList tok ⟨s.drop e, y, 0⟩ = lexListF tok (s.length + 1) ⟨s.drop e, y, 0⟩ :=
    (lexListF_eq_spansList tok (s.length + 1) ⟨s.drop e, y, 0⟩ (by simp; omega)).symm
  rw [h₁, h₂]
  exact spansList_shift tok (s.length + 1) s x y e

/-- Every span in the stream starts no earlier than the cursor, is nonempty,
and ends within the source. -/
theorem spansList_bounds {T : Type} (tok : Tokenizer T) :
    ∀ (f : Nat) (L : Lexer) (x : T × Nat × Nat), x ∈ lexListF tok f L →
      L.tokenEnd ≤ x.2.1 ∧ x.2.1 < x.2.2 ∧ x.2.2 ≤ L.source.length := by
  intro f
  induction f with
  | zero => intro L x hx; simp [lexListF] at hx
  | succ f ih =>
    intro L x hx
    simp only [lexListF] at hx
    rcases hscan : tok.scan L.remainder with _ | ⟨t, a, b⟩ <;> rw [hscan] at hx
    · simp at hx
    · have hspan := tok.scan_span _ t a b hscan
      have hne : L.remainder ≠ [] := by
        intro hnil
        rw [hnil, tok.scan_nil] at hscan
        exact Option.noConfusion hscan
      have hrem : L.remainder.length = L.source.length - L.tokenEnd := by simp [Lexer.remainder]
      have hlen0 : L.remainder.length ≠ 0 := fun hz => hne (List.eq_nil_of_length_eq_zero hz)
      rcases List.mem_cons.mp hx with rfl | hx'
      · refine ⟨?_, ?_, ?_⟩
        · show L.tokenEnd ≤ L.tokenEnd + a
          omega
        · show L.tokenEnd + a < L.tokenEnd + b
          omega
        · show L.tokenEnd + b ≤ L.source.length
          omega
      · have := ih ⟨L.source, L.tokenEnd + a, L.tokenEnd + b⟩ x hx'
        simp only at this
        exact ⟨by omega, this.2.1, this.2.2⟩

theorem Tokens.spans_bounds {T : Type} (tok : Tokenizer T) (t : Tokens)
    (x : T × Nat × Nat) (hx : x ∈ t.spans tok) :
    t.lexer.tokenEnd ≤ x.2.1 ∧ x.2.1 < x.2.2 ∧ x.2.2 ≤ t.lexer.source.length :=
  spansList_bounds tok _ t.lexer x hx

/-- Advancing pops the head of the stream. -/
theorem spans_advance {T : Type} (tok : Tokenizer T) (t : Tokens) (x : T × Nat × Nat)
    (rest : List (T × Nat × Nat)) (h : t.spans tok = x :: rest) :
    (Tokens.advance tok t).spans tok = rest := by
  rcases hscan : tok.scan t.lexer.remainder with _ | ⟨tk, a, b⟩
  · rw [Tokens.spans, Lexer.spansList] at h
    rcases hf : t.lexer.source.length + 1 - t.lexer.tokenEnd with _ | f <;> rw [hf] at h
    · exact absurd h.symm (List.cons_ne_nil x rest)
    · simp [lexListF, hscan] at h
  · have hcons := spansList_cons tok t.lexer tk a b hscan
    rw [Tokens.spans] at h
    rw [hcons] at h
    have hrest : rest = Lexer.spansList tok
        ⟨t.lexer.source, t.lexer.tokenEnd + a, t.lexer.tokenEnd + b⟩ := (List.cons.injEq _ _ _ _ ▸ h).2.symm
    rw [Tokens.advance, Tokens.spans]
    simp only [Lexer.nextStep, hscan]
    exact hrest.symm

/-- After exhausting the stream, `advance` is the identity. -/
theorem advance_of_spans_nil {T : Type} (tok : Tokenizer T) (t : Tokens)
    (h : t.spans tok = []) : Tokens.advance tok t = t := by
  have hscan : tok.scan t.lexer.remainder = none :=
    (spansList_eq_nil_iff tok t.lexer).mp h
  rw [Tokens.advance]
  simp only [Lexer.nextStep, hscan]

/-! ## `InputIter::position` and `InputIter::slice_index` (src/lib.rs:269-290) -/

/-- `Tokens::position` (src/lib.rs:269-276): find the first spanned token
satisfying the predicate, and return its span start. -/
def Tokens.position {T : Type} (tok : Tokenizer T) (t : Tokens)
    (p : T × Nat × Nat → Bool) : Option Nat :=
  ((t.spans tok).find? p).map (fun x => x.2.1)

/-- The loop of `Tokens::slice_index` (src/lib.rs:278-290): walk the spanned
stream counting tokens; once `cnt == count`, return that token's span start;
if the stream ends with `cnt == count`, return `len()`; otherwise signal
`nom::Needed::Unknown` (modelled as `none`). -/
def sliceIndexGo {T : Type} (lenT count : Nat) : List (T × Nat × Nat) → Nat → Option Nat
  | [], cnt => if cnt = count then some lenT else none
  | (_, a, _) :: rest, cnt => if cnt = count then some a else sliceIndexGo lenT count rest (cnt + 1)

/-- `Tokens::slice_index` (src/lib.rs:278-290). `none` models
`Err(nom::Needed::Unknown)`. -/
def Tokens.slice_index {T : Type} (tok : Tokenizer T) (t : Tokens) (count : Nat) : Option Nat :=
  sliceIndexGo t.len count (t.spans tok) 0

theorem sliceIndexGo_shift {T : Type} (lenT : Nat) :
    ∀ (l : List (T × Nat × Nat)) (count cnt : Nat), cnt ≤ count →
      sliceIndexGo lenT count l cnt = sliceIndexGo lenT (count - cnt) l 0 := by
  intro l
  induction l with
  | nil =>
    intro count cnt hle
    simp only [sliceIndexGo]
    by_cases h : cnt = count
    · rw [if_pos h, if_pos (by omega)]
    · rw [if_neg h, if_neg (by omega)]
  | cons x rest ih =>
    intro count cnt hle
    rcases x with ⟨t, a, b⟩
    simp only [sliceIndexGo]
    by_cases h : cnt = count
    · rw [if_pos h, if_pos (by omega)]
    · rw [if_neg h, if_neg (by omega)]
      rw [ih count (cnt + 1) (by omega), ih (count - cnt) 1 (by omega)]
      congr 1

/-- Characterization of the `slice_index` loop started at counter 0: the
span start of the `count`-th token if it exists; `len()` when the stream
holds exactly `count` tokens; insufficient input otherwise. -/
theorem sliceIndexGo_spec {T : Type} (lenT : Nat) :
    ∀ (l : List (T × Nat × Nat)) (count : Nat),
      sliceIndexGo lenT count l 0 =
        match l[count]? with
        | some x => some x.2.1
        | none => if count = l.length then some lenT else none := by
  intro l
  induction l with
  | nil =>
    intro count
    simp only [sliceIndexGo, List.getElem?_nil, List.length_nil]
    by_cases h : count = 0
    · rw [if_pos h.symm, if_pos h]
    · rw [if_neg (fun hh => h hh.symm), if_neg h]
  | cons x rest ih =>
    intro count
    rcases x with ⟨t, a, b⟩
    rcases count with _ | count'
    · simp [sliceIndexGo]
    · simp only [sliceIndexGo, if_neg (Nat.zero_ne_add_one count').elim]
      rw [sliceIndexGo_shift lenT rest (count' + 1) 1 (by omega)]
      simpa [List.getElem?_cons_succ, List.length_cons] using ih count'

/-- `slice_index` in terms of the spanned stream. -/
theorem slice_index_spec {T : Type} (tok : Tokenizer T) (t : Tokens) (count : Nat) :
    Tokens.slice_index tok t count =
      match (t.spans tok)[count]? with
      | some x => some x.2.1
      | none => if count = (t.spans tok).length then some t.len else none := by
  exact sliceIndexGo_spec t.len (t.spans tok) count

/-! ## `PartialEq for Tokens` (src/lib.rs:186-194)

`Iterator::eq(self.lexer.clone(), other.lexer.clone())`: advance both cloned
cursors in lockstep and compare the yielded token values. -/
def iterEqF {T : Type} [DecidableEq T] (tok : Tokenizer T) :
    Nat → Lexer → Lexer → Bool
  | 0, _, _ => true
  | fuel + 1, L₁, L₂ =>
    match Lexer.nextStep tok L₁, Lexer.nextStep tok L₂ with
    | (some t₁, L₁'), (some t₂, L₂') => decide (t₁ = t₂) && iterEqF tok fuel L₁' L₂'
    | (none, _), (none, _) => true
    | _, _ => false

/-- `PartialEq::eq` for `Tokens` (src/lib.rs:186-194). -/
def Tokens.eq {T : Type} [DecidableEq T] (tok : Tokenizer T) (t₁ t₂ : Tokens) : Bool :=
  iterEqF tok (t₁.lexer.source.length + t₂.lexer.source.length + 2) t₁.lexer t₂.lexer

/-! ## `InputTake` (src/lib.rs:303-325)

`take` slices `self.lexer.source()` — the *full original* source held by the
lexer, not the remaining input — and re-tokenizes the sub-slice from scratch.
Rust byte slicing of a `str` panics when the index is not a character
boundary; the panic is modelled by `none`. -/

/-- `Tokens::take` (src/lib.rs:308-312):
`Tokens { lexer: Lexer::new(&self.lexer.source()[..count]) }`. -/
def Tokens.take (t : Tokens) (count : Nat) : Option Tokens :=
  if is_char_boundary t.lexer.source count then
    some ⟨Lexer.new (t.lexer.source.take count)⟩
  else none

/-- `Tokens::take_split` (src/lib.rs:314-324):
`let (a, b) = self.lexer.source().split_at(count)`, returning fresh adapters
`(Tokens::new(a), Tokens::new(b))` in source order. -/
def Tokens.take_split (t : Tokens) (count : Nat) : Option (Tokens × Tokens) :=
  if is_char_boundary t.lexer.source count then
    some (⟨Lexer.new (t.lexer.source.take count)⟩, ⟨Lexer.new (t.lexer.source.drop count)⟩)
  else none

/-- What the spec says `take` does (spec §4.1: "returns a *new, independent*
adapter over only the first `count` bytes of the current remaining source");
kept separate from `Tokens.take`, which follows the code, to compare the two. -/
def Tokens.takeSpecRemaining (t : Tokens) (count : Nat) : Option Tokens :=
  let rem := t.lexer.source.drop t.lexer.tokenEnd
  if is_char_boundary rem count then some ⟨Lexer.new (rem.take count)⟩ else none

/-! ## The generated parsers (src/macros.rs)

`token_parser!` (src/macros.rs:89-117) generates, for a token type with
value equality and an error constructor receiving the (unconsumed) input and
the expected token, the body
`match input.peek() { Some((t, s)) if t == *self => Ok((input.advance(), s)),
_ => Err(Error($error)) }`.  `Except` models `Result<_, nom::Err<E>>`. -/
def tokenParserFn {T E : Type} [DecidableEq T] (tok : Tokenizer T)
    (err : Tokens → T → E) (self : T) (input : Tokens) : Except E (Tokens × Str) :=
  match Tokens.peek tok input with
  | some (tk, s) =>
    if tk = self then Except.ok (Tokens.advance tok input, s)
    else Except.error (err input self)
  | none => Except.error (err input self)

/-- `data_variant_parser!` (src/macros.rs:240-258): the fixed variant pattern
with its destructuring and result mapping is a partial function
`pat : T → Option A`; the body is
`match input.peek() { Some((Pattern, _)) => Ok((input.advance(), res)),
_ => Err(Error($error)) }`. -/
def dataVariantParserFn {T A E : Type} (tok : Tokenizer T)
    (pat : T → Option A) (err : Tokens → E) (input : Tokens) : Except E (Tokens × A) :=
  match Tokens.peek tok input with
  | some (tk, _) =>
    match pat tk with
    | some r => Except.ok (Tokens.advance tok input, r)
    | none => Except.error (err input)
  | none => Except.error (err input)

/-! ## A concrete tokenizer instance

One token per UTF-8-style character: the token value is the leading byte,
and the span extends over the following continuation bytes.  Used to
discharge hypotheses of the generic theorems at concrete inputs. -/

theorem takeWhile_length_le {α : Type} (p : α → Bool) :
    ∀ l : List α, (l.takeWhile p).length ≤ l.length := by
  intro l
  induction l with
  | nil => simp
  | cons x rest ih =>
    by_cases h : p x
    · simp [List.takeWhile_cons, h]
      omega
    · simp [List.takeWhile_cons, h]

theorem takeWhile_take_of_le {α : Type} (p : α → Bool) :
    ∀ (l : List α) (m : Nat), (l.takeWhile p).length ≤ m →
      (l.take m).takeWhile p = l.takeWhile p := by
  intro l
  induction l with
  | nil => intro m _; simp
  | cons x rest ih =>
    intro m hm
    by_cases h : p x
    · simp only [List.takeWhile_cons, h, if_pos] at hm ⊢
      simp only [List.length_cons] at hm
      rcases m with _ | m'
      · omega
      · simp only [List.take_succ_cons, List.takeWhile_cons, h, if_pos]
        rw [ih m' (by omega)]
    · simp only [List.takeWhile_cons, h] at hm ⊢
      rcases m with _ | m'
      · simp
      · simp [List.take_succ_cons, List.takeWhile_cons, h]

theorem getElem_after_takeWhile {α : Type} (p : α → Bool) :
    ∀ (l : List α) (x : α), l[(l.takeWhile p).length]? = some x → p x = false := by
  intro l
  induction l with
  | nil => intro x hx; simp at hx
  | cons y rest ih =>
    intro x hx
    by_cases h : p y
    · simp only [List.takeWhile_cons, h, if_pos, List.length_cons,
        List.getElem?_cons_succ] at hx
      exact ih x hx
    · simp [List.takeWhile_cons, h] at hx
      rw [← hx]
      simpa using h

/-- `scan` of the concrete tokenizer: one token per character. -/
def charScan : Str → Option (Nat × Nat × Nat)
  | [] => none
  | b :: rest => some (b, 0, 1 + (rest.takeWhile utf8ContByte).length)

theorem charScan_bound : ∀ (s : Str) (t a b : Nat), charScan s = some (t, a, b) →
    a = 0 ∧ 0 < b ∧ b ≤ s.length := by
  intro s t a b h
  rcases s with _ | ⟨x, rest⟩
  · exact Option.noConfusion h
  · simp only [charScan, Option.some.injEq, Prod.mk.injEq] at h
    have := takeWhile_length_le utf8ContByte rest
    refine ⟨h.2.1.symm, ?_, ?_⟩
    · simp [← h.2.2]
    · simp only [← h.2.2, List.length_cons]
      omega

/-- The concrete tokenizer. -/
def charTok : Tokenizer Nat where
  scan := charScan
  scan_span := by
    intro s t a b h
    have := charScan_bound s t a b h
    exact ⟨by omega, this.2.2⟩
  scan_trunc := by
    intro s n t a b h hbn
    rcases s with _ | ⟨x, rest⟩
    · exact Option.noConfusion h
    · simp only [charScan, Option.some.injEq, Prod.mk.injEq] at h
      obtain ⟨rfl, rfl, rfl⟩ := h
      rcases n with _ | n'
      · omega
      · rw [List.take_succ_cons]
        show some (x, 0, 1 + ((rest.take n').takeWhile utf8ContByte).length) = _
        rw [takeWhile_take_of_le utf8ContByte rest n' (by omega)]
  scan_gap_drop := by
    intro s t a b h
    have ha := (charScan_bound s t a b h).1
    subst ha
    simpa using h
  scan_gap_none := by
    intro s t a b h
    have ha := (charScan_bound s t a b h).1
    subst ha
    simp [charScan]
  scan_boundary := by
    intro s t a b h
    rcases s with _ | ⟨x, rest⟩
    · exact Option.noConfusion h
    · simp only [charScan, Option.some.injEq, Prod.mk.injEq] at h
      obtain ⟨rfl, rfl, rfl⟩ := h
      constructor
      · simp [is_char_boundary]
      · unfold is_char_boundary
        rw [if_neg (by omega)]
        rcases hg : (x :: rest)[1 + (rest.takeWhile utf8ContByte).length]? with _ | y
        · have hlt := (List.getElem?_eq_none_iff).mp hg
          have hle := takeWhile_length_le utf8ContByte rest
          simp only [List.length_cons] at hlt ⊢
          have : 1 + (rest.takeWhile utf8ContByte).length = rest.length + 1 := by omega
          simp [this]
        · have : rest[(rest.takeWhile utf8ContByte).length]? = some y := by
            rw [← hg]
            have : 1 + (rest.takeWhile utf8ContByte).length =
                (rest.takeWhile utf8ContByte).length + 1 := by omega
            rw [this, List.getElem?_cons_succ]
          have hfalse : utf8ContByte y = false := getElem_after_takeWhile utf8ContByte rest y this
          show (!utf8ContByte y) = true
          rw [hfalse]
          rfl

/-- Unfolding the stream of a fresh cursor. -/
theorem freshSpans_cons {T : Type} (tok : Tokenizer T) (s : Str) (t : T) (a b : Nat)
    (h : tok.scan s = some (t, a, b)) :
    Lexer.spansList tok ⟨s, 0, 0⟩ =
      (t, a, b) :: (Lexer.spansList tok ⟨s.drop b, 0, 0⟩).map (shiftSpan b) := by
  have hrem : Lexer.remainder ⟨s, 0, 0⟩ = s := by simp [Lexer.remainder]
  have hc := spansList_cons tok ⟨s, 0, 0⟩ t a b (by rw [hrem]; exact h)
  simp only [Nat.zero_add] at hc
  rw [hc, spansList_shift_fresh tok s a 0 b]

/-- The core cut lemma: if the fresh stream over `s` has an element `x` at
index `count`, then the start of `x` is a character boundary, the fresh scan
of the suffix from that start re-produces `x`'s token, and re-tokenizing the
prefix of `s` up to that start from scratch yields exactly the first `count`
stream elements. -/
theorem freshSpans_cut {T : Type} (tok : Tokenizer T) :
    ∀ (count : Nat) (s : Str) (x : T × Nat × Nat),
      (Lexer.spansList tok ⟨s, 0, 0⟩)[count]? = some x →
      is_char_boundary s x.2.1 = true ∧
      tok.scan (s.drop x.2.1) = some (x.1, 0, x.2.2 - x.2.1) ∧
      Lexer.spansList tok ⟨s.take x.2.1, 0, 0⟩ = (Lexer.spansList tok ⟨s, 0, 0⟩).take count := by
  intro count
  induction count with
  | zero =>
    intro s x hx
    rcases hscan : tok.scan s with _ | ⟨t, a, b⟩
    · rw [spansList_nil tok ⟨s, 0, 0⟩ (by simpa [Lexer.remainder] using hscan)] at hx
      simp at hx
    · rw [freshSpans_cons tok s t a b hscan] at hx
      simp only [List.getElem?_cons_zero, Option.some.injEq] at hx
      subst hx
      refine ⟨(tok.scan_boundary s t a b hscan).1, ?_, ?_⟩
      · have := tok.scan_gap_drop s t a b hscan
        simpa using this
      · have hnone := tok.scan_gap_none s t a b hscan
        rw [spansList_nil tok ⟨s.take a, 0, 0⟩ (by simpa [Lexer.remainder] using hnone)]
        simp
  | succ k ih =>
    intro s x hx
    rcases hscan : tok.scan s with _ | ⟨t, a, b⟩
    · rw [spansList_nil tok ⟨s, 0, 0⟩ (by simpa [Lexer.remainder] using hscan)] at hx
      simp at hx
    · rw [freshSpans_cons tok s t a b hscan] at hx
      simp only [List.getElem?_cons_succ, List.getElem?_map] at hx
      rcases hy : (Lexer.spansList tok ⟨s.drop b, 0, 0⟩)[k]? with _ | y
      · rw [hy] at hx
        exact Option.noConfusion hx
      · rw [hy] at hx
        simp only [Option.map_some', Option.some.injEq] at hx
        subst hx
        obtain ⟨hbound, hdrop, hcut⟩ := ih (s.drop b) y hy
        have hb_bound : is_char_boundary s b = true := (tok.scan_boundary s t a b hscan).2
        have hspan := tok.scan_span s t a b hscan
        refine ⟨?_, ?_, ?_⟩
        · show is_char_boundary s (b + y.2.1) = true
          exact is_char_boundary_add hb_bound hbound
        · show tok.scan (s.drop (b + y.2.1)) = some (y.1, 0, (b + y.2.2) - (b + y.2.1))
          rw [← List.drop_drop]
          have : b + y.2.2 - (b + y.2.1) = y.2.2 - y.2.1 := by omega
          rw [this]
          exact hdrop
        · show Lexer.spansList tok ⟨s.take (b + y.2.1), 0, 0⟩ =
            (Lexer.spansList tok ⟨s, 0, 0⟩).take (k + 1)
          have hscan' : tok.scan (s.take (b + y.2.1)) = some (t, a, b) :=
            tok.scan_trunc s (b + y.2.1) t a b hscan (by omega)
          rw [freshSpans_cons tok _ t a b hscan']
          rw [freshSpans_cons tok s t a b hscan]
          rw [List.take_succ_cons]
          congr 1
          have hdt : (s.take (b + y.2.1)).drop b = (s.drop b).take y.2.1 := by
            rw [List.drop_take]
            congr 1
            omega
          rw [hdt, hcut, ← List.map_take]

/-- The end of a string is always a character boundary. -/
theorem is_char_boundary_length (s : Str) : is_char_boundary s s.length = true := by
  unfold is_char_boundary
  by_cases h : s.length = 0
  · rw [if_pos h]
  · rw [if_neg h]
    have : s[s.length]? = none := List.getElem?_eq_none_iff.mpr (by omega)
    rw [this]
    simp

/-- `len()` is the length of the untokenized remainder. -/
theorem Tokens.len_eq_remainder_length (t : Tokens) :
    t.len = t.lexer.remainder.length := by
  simp [Tokens.len, Lexer.remainder]

/-- The concrete tokenizer produces a token from every nonempty input. -/
theorem charScan_exhaustive : ∀ s : Str, charTok.scan s = none → s = [] := by
  intro s h
  rcases s with _ | ⟨b, rest⟩
  · rfl
  · exact Option.noConfusion h

/-! ## Claim theorems -/

/-- C5: `peek()` is idempotent and side-effect-free: it operates on a clone,
returns the adapter unchanged, and does not affect a subsequent `len()`,
`peek()` or `advance()`. -/
theorem peek_pure {T : Type} (tok : Tokenizer T) (t : Tokens) :
    (t.peekSt tok).2 = t ∧
    Tokens.peek tok ((t.peekSt tok).2) = Tokens.peek tok t ∧
    Tokens.len ((t.peekSt tok).2) = t.len ∧
    Tokens.advance tok ((t.peekSt tok).2) = Tokens.advance tok t := by
  have h2 : (t.peekSt tok).2 = t := by
    show (match Lexer.nextStep tok t.lexer with
      | (some tk, iter') => (some (tk, sliceSpan t.lexer.source iter'.tokenStart iter'.tokenEnd), t)
      | (none, _) => ((none : Option (T × Str)), t)).2 = t
    rcases h : Lexer.nextStep tok t.lexer with ⟨o, L'⟩
    rcases o with _ | tk <;> rfl
  exact ⟨h2, by rw [h2], by rw [h2], by rw [h2]⟩

theorem advanceN_depletes_aux {T : Type} (tok : Tokenizer T)
    (hex : ∀ s, tok.scan s = none → s = []) :
    ∀ (n : Nat) (t : Tokens), (t.spans tok).length = n →
      (Tokens.advanceN tok n t).len = 0 ∧
      Tokens.advance tok (Tokens.advanceN tok n t) = Tokens.advanceN tok n t := by
  intro n
  induction n with
  | zero =>
    intro t hlen
    have hnil : t.spans tok = [] := List.eq_nil_of_length_eq_zero hlen
    have hscan : tok.scan t.lexer.remainder = none :=
      (spansList_eq_nil_iff tok t.lexer).mp hnil
    have hrem : t.lexer.remainder = [] := hex _ hscan
    refine ⟨?_, ?_⟩
    · rw [Tokens.advanceN, Tokens.len_eq_remainder_length, hrem]
      rfl
    · rw [Tokens.advanceN]
      exact advance_of_spans_nil tok t hnil
  | succ n ih =>
    intro t hlen
    rcases hsp : t.spans tok with _ | ⟨x, rest⟩
    · rw [hsp] at hlen
      exact absurd hlen (by simp)
    · have hrest : ((Tokens.advance tok t).spans tok).length = n := by
        rw [spans_advance tok t x rest hsp]
        rw [hsp] at hlen
        simpa using hlen
      rw [Tokens.advanceN]
      exact ih (Tokens.advance tok t) hrest

/-- C4: `Tokens::new(s).len() == s.len()`; advancing as many times as the
tokenizer yields tokens depletes the adapter (`len() == 0`), and one further
`advance` is a no-op.  Hypothesis `hex`: the tokenizer produces a token from
every nonempty input (spec-modelled; the spec's abstract tokenizer leaves no
untokenized trailing input: §4.1 "an empty source yields a depleted adapter",
§8). -/
theorem new_len_advance_depletes {T : Type} (tok : Tokenizer T)
    (hex : ∀ s, tok.scan s = none → s = []) (s : Str) (t : Tokens) :
    (Tokens.new s).len = s.length ∧
    (Tokens.advanceN tok ((t.spans tok).length) t).len = 0 ∧
    Tokens.advance tok (Tokens.advanceN tok ((t.spans tok).length) t) =
      Tokens.advanceN tok ((t.spans tok).length) t := by
  refine ⟨?_, ?_, ?_⟩
  · simp [Tokens.new, Tokens.len, Lexer.new]
  · exact (advanceN_depletes_aux tok hex _ t rfl).1
  · exact (advanceN_depletes_aux tok hex _ t rfl).2

/-- Witness for C4 at the concrete tokenizer and source "12". -/
theorem new_len_advance_depletes_witness :
    (Tokens.new [49, 50]).len = ([49, 50] : Str).length ∧
    (Tokens.advanceN charTok (((Tokens.new [49, 50]).spans charTok).length)
      (Tokens.new [49, 50])).len = 0 ∧
    Tokens.advance charTok (Tokens.advanceN charTok
        (((Tokens.new [49, 50]).spans charTok).length) (Tokens.new [49, 50])) =
      Tokens.advanceN charTok (((Tokens.new [49, 50]).spans charTok).length)
        (Tokens.new [49, 50]) :=
  new_len_advance_depletes charTok charScan_exhaustive [49, 50] (Tokens.new [49, 50])

/-- C2: `slice_index(count)` signals insufficient input (`Err(Needed::Unknown)`,
modelled `none`) iff fewer than `count` tokens remain; when exactly `count`
tokens remain it returns `len()`. -/
theorem slice_index_insufficient {T : Type} (tok : Tokenizer T) (t : Tokens) (count : Nat) :
    (Tokens.slice_index tok t count = none ↔ (t.spans tok).length < count) ∧
    ((t.spans tok).length = count → Tokens.slice_index tok t count = some t.len) := by
  rw [slice_index_spec tok t count]
  rcases hg : (t.spans tok)[count]? with _ | x
  · have hge : (t.spans tok).length ≤ count := by
      have := List.getElem?_eq_none_iff.mp hg
      omega
    constructor
    · by_cases he : count = (t.spans tok).length
      · rw [if_pos he]
        constructor
        · intro hsome; exact Option.noConfusion hsome
        · omega
      · rw [if_neg he]
        constructor
        · intro _; omega
        · intro _; rfl
    · intro he
      rw [if_pos he.symm]
  · have hlt : count < (t.spans tok).length := (List.getElem?_eq_some_iff.mp hg).1
    constructor
    · constructor
      · intro hsome; exact Option.noConfusion hsome
      · omega
    · intro he; omega

/-- Witness for C2: on "12", two tokens remain, so `slice_index(2)` returns
`len()` and `slice_index(3)` signals insufficient input. -/
theorem slice_index_insufficient_witness :
    Tokens.slice_index charTok (Tokens.new [49, 50]) 2 = some (Tokens.new [49, 50]).len ∧
    Tokens.slice_index charTok (Tokens.new [49, 50]) 3 = none :=
  ⟨(slice_index_insufficient charTok (Tokens.new [49, 50]) 2).2 (by decide),
   (slice_index_insufficient charTok (Tokens.new [49, 50]) 3).1.mpr (by decide)⟩

/-- C10: `take(count)` and `take_split(count)` slice the held source text
unchecked; they succeed exactly when `count` is at most the source length and
falls on a UTF-8 character boundary, and the panic (`none`) is unreachable
exactly under that precondition. -/
theorem take_panic_free_iff (t : Tokens) (count : Nat) :
    ((Tokens.take t count).isSome ↔
      count ≤ t.lexer.source.length ∧ is_char_boundary t.lexer.source count = true) ∧
    ((Tokens.take_split t count).isSome ↔
      count ≤ t.lexer.source.length ∧ is_char_boundary t.lexer.source count = true) := by
  unfold Tokens.take Tokens.take_split
  by_cases h : is_char_boundary t.lexer.source count = true
  · rw [if_pos h, if_pos h]
    simp [h, is_char_boundary_le h]
  · rw [if_neg h, if_neg h]
    simp [h]

/-- `find?` returns the element at the first satisfying index. -/
theorem find?_first_of_take_all {α : Type} (p : α → Bool) :
    ∀ (l : List α) (k : Nat) (x : α),
      l[k]? = some x → p x = true → ((l.take k).all fun y => !(p y)) = true →
      l.find? p = some x := by
  intro l
  induction l with
  | nil => intro k x hx _ _; simp at hx
  | cons z rest ih =>
    intro k x hx hpx hall
    rcases k with _ | k'
    · simp only [List.getElem?_cons_zero, Option.some.injEq] at hx
      subst hx
      rw [List.find?_cons_of_pos _ hpx]
    · simp only [List.take_succ_cons, List.all_cons, Bool.and_eq_true, Bool.not_eq_true'] at hall
      rw [List.find?_cons_of_neg _ (by simp [hall.1])]
      exact ih k' x (by simpa using hx) hpx hall.2

/-- C6: `position(pred)` returns the span start of the first token satisfying
`pred` (`none` when no token matches through end of input), and that offset
equals `slice_index(k)` for the token's ordinal index `k`. -/
theorem position_first_match {T : Type} (tok : Tokenizer T) (t : Tokens)
    (p : T × Nat × Nat → Bool) :
    (Tokens.position tok t p = none ↔ ∀ x ∈ t.spans tok, p x = false) ∧
    (∀ k x, (t.spans tok)[k]? = some x → p x = true →
      (((t.spans tok).take k).all fun y => !(p y)) = true →
      Tokens.position tok t p = some x.2.1 ∧ Tokens.slice_index tok t k = some x.2.1) := by
  constructor
  · unfold Tokens.position
    rw [Option.map_eq_none', List.find?_eq_none]
    constructor
    · intro h x hx
      have := h x hx
      simpa using this
    · intro h x hx
      simp [h x hx]
  · intro k x hx hpx hall
    have hfind : (t.spans tok).find? p = some x := find?_first_of_take_all p _ k x hx hpx hall
    constructor
    · unfold Tokens.position
      rw [hfind]
      rfl
    · rw [slice_index_spec tok t k, hx]

/-- Witness for C6 on "12": the first token with value `50` sits at byte
offset 1, which is also `slice_index(1)`. -/
theorem position_first_match_witness :
    Tokens.position charTok (Tokens.new [49, 50]) (fun x => decide (x.1 = 50)) = some 1 ∧
    Tokens.slice_index charTok (Tokens.new [49, 50]) 1 = some 1 :=
  (position_first_match charTok (Tokens.new [49, 50]) (fun x => decide (x.1 = 50))).2
    1 (50, 1, 2) (by decide) (by decide) (by decide)

theorem iterEqF_spec {T : Type} [DecidableEq T] (tok : Tokenizer T) :
    ∀ (f : Nat) (L₁ L₂ : Lexer),
      L₁.source.length - L₁.tokenEnd < f → L₂.source.length - L₂.tokenEnd < f →
      (iterEqF tok f L₁ L₂ = true ↔
        (Lexer.spansList tok L₁).map (fun x => x.1) =
          (Lexer.spansList tok L₂).map (fun x => x.1)) := by
  intro f
  induction f with
  | zero => intro L₁ L₂ h₁ h₂; omega
  | succ f ih =>
    intro L₁ L₂ h₁ h₂
    rcases hs₁ : tok.scan L₁.remainder with _ | ⟨t₁, a₁, b₁⟩ <;>
      rcases hs₂ : tok.scan L₂.remainder with _ | ⟨t₂, a₂, b₂⟩
    · rw [spansList_nil tok L₁ hs₁, spansList_nil tok L₂ hs₂]
      simp only [iterEqF, Lexer.nextStep, hs₁, hs₂, List.map_nil]
    · rw [spansList_nil tok L₁ hs₁, spansList_cons tok L₂ t₂ a₂ b₂ hs₂]
      simp only [iterEqF, Lexer.nextStep, hs₁, hs₂, List.map_nil, List.map_cons]
      constructor
      · intro hfalse; exact Bool.noConfusion hfalse
      · intro hcons; exact absurd hcons.symm (List.cons_ne_nil _ _)
    · rw [spansList_cons tok L₁ t₁ a₁ b₁ hs₁, spansList_nil tok L₂ hs₂]
      simp only [iterEqF, Lexer.nextStep, hs₁, hs₂, List.map_nil, List.map_cons]
      constructor
      · intro hfalse; exact Bool.noConfusion hfalse
      · intro hcons; exact absurd hcons (List.cons_ne_nil _ _)
    · have hne₁ : L₁.remainder ≠ [] := by
        intro hnil; rw [hnil, tok.scan_nil] at hs₁; exact Option.noConfusion hs₁
      have hne₂ : L₂.remainder ≠ [] := by
        intro hnil; rw [hnil, tok.scan_nil] at hs₂; exact Option.noConfusion hs₂
      have hrl₁ : L₁.remainder.length = L₁.source.length - L₁.tokenEnd := by
        simp [Lexer.remainder]
      have hrl₂ : L₂.remainder.length = L₂.source.length - L₂.tokenEnd := by
        simp [Lexer.remainder]
      have hz₁ : L₁.remainder.length ≠ 0 := fun hz => hne₁ (List.eq_nil_of_length_eq_zero hz)
      have hz₂ : L₂.remainder.length ≠ 0 := fun hz => hne₂ (List.eq_nil_of_length_eq_zero hz)
      have hb₁ := tok.scan_span _ t₁ a₁ b₁ hs₁
      have hb₂ := tok.scan_span _ t₂ a₂ b₂ hs₂
      rw [spansList_cons tok L₁ t₁ a₁ b₁ hs₁, spansList_cons tok L₂ t₂ a₂ b₂ hs₂]
      simp only [iterEqF, Lexer.nextStep, hs₁, hs₂, List.map_cons, List.cons.injEq,
        Bool.and_eq_true, decide_eq_true_eq]
      constructor
      · intro ⟨hteq, hrec⟩
        refine ⟨hteq, ?_⟩
        exact (ih _ _ (by simp; omega) (by simp; omega)).mp hrec
      · intro ⟨hteq, hrec⟩
        refine ⟨hteq, ?_⟩
        exact (ih _ _ (by simp; omega) (by simp; omega)).mpr hrec

/-- C9: adapter equality is content-based: two adapters compare equal iff
their remaining token-value streams are equal, regardless of cursor position
or originating source string. -/
theorem tokens_eq_iff_tokenValues {T : Type} [DecidableEq T] (tok : Tokenizer T)
    (t₁ t₂ : Tokens) :
    Tokens.eq tok t₁ t₂ = true ↔ t₁.tokenValues tok = t₂.tokenValues tok := by
  unfold Tokens.eq Tokens.tokenValues Tokens.spans
  exact iterEqF_spec tok _ t₁.lexer t₂.lexer (by omega) (by omega)

/-- Witness for C9: an adapter advanced past "a" in "ab" equals a fresh
adapter over the different source "b" — identical remaining token streams. -/
theorem tokens_eq_iff_tokenValues_witness :
    Tokens.eq charTok (Tokens.advance charTok (Tokens.new [97, 98])) (Tokens.new [98]) = true :=
  (tokens_eq_iff_tokenValues charTok (Tokens.advance charTok (Tokens.new [97, 98]))
    (Tokens.new [98])).mpr (by decide)

/-- C7: the generated single-token matcher succeeds iff peeking yields a
token equal to the matched instance, returning the advanced adapter and the
matched token's source slice; otherwise it fails with the configured error,
built from the original, unconsumed adapter and the expected token. -/
theorem token_matcher_spec {T E : Type} [DecidableEq T] (tok : Tokenizer T)
    (err : Tokens → T → E) (self : T) (input : Tokens) :
    (∀ s, Tokens.peek tok input = some (self, s) →
      tokenParserFn tok err self input = Except.ok (Tokens.advance tok input, s)) ∧
    (∀ r s, tokenParserFn tok err self input = Except.ok (r, s) →
      Tokens.peek tok input = some (self, s) ∧ r = Tokens.advance tok input) ∧
    ((∀ s, Tokens.peek tok input ≠ some (self, s)) →
      tokenParserFn tok err self input = Except.error (err input self)) := by
  refine ⟨?_, ?_, ?_⟩
  · intro s hs
    simp [tokenParserFn, hs]
  · intro r s hok
    unfold tokenParserFn at hok
    rcases hp : Tokens.peek tok input with _ | ⟨tk, s'⟩ <;> rw [hp] at hok
    · exact Except.noConfusion hok
    · have hok' : (if tk = self then Except.ok (Tokens.advance tok input, s')
          else Except.error (err input self)) = Except.ok (r, s) := hok
      by_cases he : tk = self
      · rw [if_pos he] at hok'
        subst he
        simp only [Except.ok.injEq, Prod.mk.injEq] at hok'
        refine ⟨?_, hok'.1.symm⟩
        rw [hok'.2]
      · rw [if_neg he] at hok'
        exact Except.noConfusion hok'
  · intro hne
    unfold tokenParserFn
    rcases hp : Tokens.peek tok input with _ | ⟨tk, s'⟩
    · rfl
    · show (if tk = self then Except.ok (Tokens.advance tok input, s')
        else Except.error (err input self)) = Except.error (err input self)
      by_cases he : tk = self
      · subst he
        exact absurd hp (hne s')
      · rw [if_neg he]

/-- An error payload capturing the unconsumed input and the expected token. -/
def errPair (inp : Tokens) (tk : Nat) : Tokens × Nat := (inp, tk)

/-- Witness for C7 on "1": matching token value 49 succeeds with slice "1";
matching 50 fails with an error carrying the original adapter and 50. -/
theorem token_matcher_spec_witness :
    tokenParserFn charTok errPair 49 (Tokens.new [49]) =
      Except.ok (Tokens.advance charTok (Tokens.new [49]), [49]) ∧
    tokenParserFn charTok errPair 50 (Tokens.new [49]) =
      Except.error (errPair (Tokens.new [49]) 50) :=
  ⟨(token_matcher_spec charTok errPair 49 (Tokens.new [49])).1 [49] (by decide),
   (token_matcher_spec charTok errPair 50 (Tokens.new [49])).2.2 (fun s hs => by
     rw [show Tokens.peek charTok (Tokens.new [49]) = some (49, [49]) from rfl] at hs
     simp at hs)⟩

/-- C8: the generated data-variant matcher succeeds iff the peeked token
matches the fixed variant pattern, returning the advanced adapter and the
mapped payload; otherwise — including on a depleted adapter — it fails with
the configured error, never panicking (the embedding is total). -/
theorem data_variant_matcher_spec {T A E : Type} (tok : Tokenizer T)
    (pat : T → Option A) (err : Tokens → E) (input : Tokens) :
    (∀ tk s r, Tokens.peek tok input = some (tk, s) → pat tk = some r →
      dataVariantParserFn tok pat err input = Except.ok (Tokens.advance tok input, r)) ∧
    (∀ tk s, Tokens.peek tok input = some (tk, s) → pat tk = none →
      dataVariantParserFn tok pat err input = Except.error (err input)) ∧
    (Tokens.peek tok input = none →
      dataVariantParserFn tok pat err input = Except.error (err input)) ∧
    (input.len = 0 →
      dataVariantParserFn tok pat err input = Except.error (err input)) := by
  have hdep : input.len = 0 → Tokens.peek tok input = none := by
    intro hlen
    have hrem : input.lexer.remainder = [] := by
      have := Tokens.len_eq_remainder_length input
      rw [hlen] at this
      exact List.eq_nil_of_length_eq_zero this.symm
    have hscan : tok.scan input.lexer.remainder = none := by
      rw [hrem]; exact tok.scan_nil
    show (match Lexer.nextStep tok input.lexer with
      | (some tk, iter') =>
        (some (tk, sliceSpan input.lexer.source iter'.tokenStart iter'.tokenEnd), input)
      | (none, _) => ((none : Option (T × Str)), input)).1 = none
    unfold Lexer.nextStep
    rw [hscan]
  refine ⟨?_, ?_, ?_, ?_⟩
  · intro tk s r hp hpat
    simp [dataVariantParserFn, hp, hpat]
  · intro tk s hp hpat
    simp [dataVariantParserFn, hp, hpat]
  · intro hp
    simp [dataVariantParserFn, hp]
  · intro hlen
    simp [dataVariantParserFn, hdep hlen]

/-- The analog of the `Number(n)` pattern for the concrete tokenizer: match a
digit byte and map it to its value. -/
def digitPat (b : Nat) : Option Nat :=
  if 48 ≤ b ∧ b ≤ 57 then some (b - 48) else none

/-- An error constructor storing the unconsumed input. -/
def errInput (inp : Tokens) : Tokens := inp

/-- Witness for C8: on "1" the digit matcher succeeds with payload 1; applied
to a depleted adapter it fails with the configured error instead of panicking. -/
theorem data_variant_matcher_spec_witness :
    dataVariantParserFn charTok digitPat errInput (Tokens.new [49]) =
      Except.ok (Tokens.advance charTok (Tokens.new [49]), 1) ∧
    dataVariantParserFn charTok digitPat errInput (Tokens.advance charTok (Tokens.new [49])) =
      Except.error (errInput (Tokens.advance charTok (Tokens.new [49]))) :=
  ⟨(data_variant_matcher_spec charTok digitPat errInput (Tokens.new [49])).1
      49 [49] 1 (by decide) (by decide),
   (data_variant_matcher_spec charTok digitPat errInput
      (Tokens.advance charTok (Tokens.new [49]))).2.2.2 (by decide)⟩

/-- Counterexample to C1: on an adapter advanced past the first token of
"ab", `take(1)` slices the *full original* source (yielding the already
consumed "a"), not the first byte of the remaining source "b" as the spec
states. -/
theorem take_remaining_counterexample :
    Tokens.take (Tokens.advance charTok (Tokens.new [97, 98])) 1 ≠
      Tokens.takeSpecRemaining (Tokens.advance charTok (Tokens.new [97, 98])) 1 ∧
    (Tokens.take (Tokens.advance charTok (Tokens.new [97, 98])) 1).map
      (fun r => r.tokenValues charTok) = some [97] ∧
    (Tokens.takeSpecRemaining (Tokens.advance charTok (Tokens.new [97, 98])) 1).map
      (fun r => r.tokenValues charTok) = some [98] := by
  refine ⟨?_, by decide, by decide⟩
  decide

/-- C1 (amended): `take(count)` and `take_split(count)` cut the first `count`
bytes of the *original full source* held by the lexer (not the current
remaining source), both halves re-tokenized from scratch as fresh adapters
with positions relative to their sub-slice; the result's spans stay within
the sub-slice. -/
theorem take_uses_original_source {T : Type} (tok : Tokenizer T) (t : Tokens) (count : Nat) :
    (is_char_boundary t.lexer.source count = true →
      Tokens.take t count = some (Tokens.new (t.lexer.source.take count)) ∧
      Tokens.take_split t count =
        some (Tokens.new (t.lexer.source.take count), Tokens.new (t.lexer.source.drop count)) ∧
      ∀ x ∈ (Tokens.new (t.lexer.source.take count)).spans tok, x.2.1 < count ∧ x.2.2 ≤ count) ∧
    (is_char_boundary t.lexer.source count = false →
      Tokens.take t count = none ∧ Tokens.take_split t count = none) := by
  constructor
  · intro h
    refine ⟨by simp [Tokens.take, h, Tokens.new, Lexer.new],
      by simp [Tokens.take_split, h, Tokens.new, Lexer.new], ?_⟩
    intro x hx
    have hb := Tokens.spans_bounds tok (Tokens.new (t.lexer.source.take count)) x hx
    simp only [Tokens.new, Lexer.new, List.length_take] at hb
    constructor
    · omega
    · have := hb.2.2
      omega
  · intro h
    constructor
    · simp [Tokens.take, h]
    · simp [Tokens.take_split, h]

/-- Witness for the amended C1, applied to the advanced adapter over "ab"
from the counterexample: the cut is taken from the original source. -/
theorem take_uses_original_source_witness :
    Tokens.take (Tokens.advance charTok (Tokens.new [97, 98])) 1 =
      some (Tokens.new [97]) ∧
    Tokens.take_split (Tokens.advance charTok (Tokens.new [97, 98])) 1 =
      some (Tokens.new [97], Tokens.new [98]) := by
  have h := (take_uses_original_source charTok
    (Tokens.advance charTok (Tokens.new [97, 98])) 1).1 (by decide)
  exact ⟨h.1, h.2.1⟩

/-- Counterexample to C3: on an adapter advanced past the first token of
"abc", `slice_index(1)` returns offset 2, but `take(2)` re-tokenizes the
first two bytes of the *original* source, so its stream is the two tokens
"a","b" — not "exactly those 1 tokens" (the single token "b") the claim
promises. -/
theorem slice_index_take_advanced_counterexample :
    Tokens.slice_index charTok (Tokens.advance charTok (Tokens.new [97, 98, 99])) 1 = some 2 ∧
    (Tokens.take (Tokens.advance charTok (Tokens.new [97, 98, 99])) 2).map
      (fun r => r.tokenValues charTok) = some [97, 98] ∧
    (Tokens.take (Tokens.advance charTok (Tokens.new [97, 98, 99])) 2).map
        (fun r => r.tokenValues charTok) ≠
      some (((Tokens.advance charTok (Tokens.new [97, 98, 99])).tokenValues charTok).take 1) := by
  refine ⟨by decide, by decide, ?_⟩
  decide

/-- C3 (amended): for a *fresh* adapter (cursor at the start of its source),
when `slice_index(count)` returns an offset `o`, `take(o)` succeeds and its
token stream is exactly the first `count` tokens, and (when a `(count+1)`-th
token exists) the second component of `take_split(o)` starts with that
`(count+1)`-th token. -/
theorem slice_index_take_fresh {T : Type} (tok : Tokenizer T) (s : Str) (count o : Nat)
    (h : Tokens.slice_index tok (Tokens.new s) count = some o) :
    (Tokens.take (Tokens.new s) o).map (fun tp => tp.tokenValues tok) =
      some (((Tokens.new s).tokenValues tok).take count) ∧
    (count < ((Tokens.new s).spans tok).length →
      (Tokens.take_split (Tokens.new s) o).map (fun pr => (pr.2.tokenValues tok)[0]?) =
        some (((Tokens.new s).tokenValues tok)[count]?)) := by
  have hsrc : (Tokens.new s).lexer.source = s := rfl
  have hspans : (Tokens.new s).spans tok = Lexer.spansList tok ⟨s, 0, 0⟩ := rfl
  rw [slice_index_spec tok (Tokens.new s) count] at h
  rcases hg : ((Tokens.new s).spans tok)[count]? with _ | x
  · rw [hg] at h
    by_cases hc : count = ((Tokens.new s).spans tok).length
    · rw [if_pos hc] at h
      have hlen : (Tokens.new s).len = s.length := by
        simp [Tokens.new, Tokens.len, Lexer.new]
      rw [hlen] at h
      injection h with ho
      subst ho
      constructor
      · have htake : Tokens.take (Tokens.new s) s.length = some (Tokens.new (s.take s.length)) := by
          unfold Tokens.take
          rw [hsrc, if_pos (is_char_boundary_length s)]
          rfl
        rw [htake, List.take_length]
        have hTV : (((Tokens.new s).tokenValues tok)).take count = (Tokens.new s).tokenValues tok := by
          apply List.take_of_length_le
          simp [Tokens.tokenValues, hc]
        rw [hTV]
        rfl
      · intro hlt
        omega
    · rw [if_neg hc] at h
      exact Option.noConfusion h
  · rw [hg] at h
    injection h with ho
    subst ho
    have hgS : (Lexer.spansList tok ⟨s, 0, 0⟩)[count]? = some x := by
      rw [← hspans]
      exact hg
    obtain ⟨hbound, hdropscan, hcut⟩ := freshSpans_cut tok count s x hgS
    constructor
    · have htake : Tokens.take (Tokens.new s) x.2.1 = some (Tokens.new (s.take x.2.1)) := by
        unfold Tokens.take
        rw [hsrc, if_pos hbound]
        rfl
      rw [htake]
      show some ((Lexer.spansList tok ⟨s.take x.2.1, 0, 0⟩).map (fun y => y.1)) = _
      rw [hcut, List.map_take]
      rfl
    · intro hlt
      have hsplit : Tokens.take_split (Tokens.new s) x.2.1 =
          some (Tokens.new (s.take x.2.1), Tokens.new (s.drop x.2.1)) := by
        unfold Tokens.take_split
        rw [hsrc, if_pos hbound]
        rfl
      rw [hsplit]
      have hcons := freshSpans_cons tok (s.drop x.2.1) x.1 0 (x.2.2 - x.2.1) hdropscan
      show some (((Lexer.spansList tok ⟨s.drop x.2.1, 0, 0⟩).map (fun y => y.1))[0]?) = _
      rw [hcons]
      have hRHS : ((Tokens.new s).tokenValues tok)[count]? =
          (((Tokens.new s).spans tok)[count]?).map (fun y => y.1) := by
        show (((Tokens.new s).spans tok).map (fun y => y.1))[count]? = _
        rw [List.getElem?_map]
      rw [hRHS, hg]
      simp only [List.map_cons, List.getElem?_cons_zero, Option.map_some']

/-- Witness for the amended C3 on the fresh adapter over "ab" with
`count = 1`: `slice_index` returns 1, `take(1)` holds exactly the first
token, and the split's second half starts with the second token. -/
theorem slice_index_take_fresh_witness :
    (Tokens.take (Tokens.new [97, 98]) 1).map (fun tp => tp.tokenValues charTok) =
      some [97] ∧
    (Tokens.take_split (Tokens.new [97, 98]) 1).map
        (fun pr => (pr.2.tokenValues charTok)[0]?) = some (some 98) := by
  have h := slice_index_take_fresh charTok [97, 98] 1 1 (by decide)
  exact ⟨h.1, h.2 (by decide)⟩

/-- Witness for C5 at a concrete adapter. -/
theorem peek_pure_witness :
    ((Tokens.new [49]).peekSt charTok).2 = Tokens.new [49] ∧
    Tokens.peek charTok (((Tokens.new [49]).peekSt charTok).2) =
      Tokens.peek charTok (Tokens.new [49]) ∧
    Tokens.len (((Tokens.new [49]).peekSt charTok).2) = (Tokens.new [49]).len ∧
    Tokens.advance charTok (((Tokens.new [49]).peekSt charTok).2) =
      Tokens.advance charTok (Tokens.new [49]) :=
  peek_pure charTok (Tokens.new [49])

/-- Witness for C10: slicing "a" at the in-bounds boundary 1 succeeds. -/
theorem take_panic_free_iff_witness :
    (Tokens.take (Tokens.new [97]) 1).isSome ∧
    (Tokens.take_split (Tokens.new [97]) 1).isSome :=
  ⟨(take_panic_free_iff (Tokens.new [97]) 1).1.mpr (by decide),
   (take_panic_free_iff (Tokens.new [97]) 1).2.mpr (by decide)⟩
